import Mathlib

/-!
# Verification of the TD4-rust text-statistics engine

Shallow embedding of `src/main.rs`: the two analyzers `analyze_text_slow`
and `analyze_text_fast`.  Text is modelled as a list of bytes (`List Nat`);
normalized words are byte lists as well (they only ever contain lowercase
ASCII letters, so Rust's `String` comparison coincides with byte-list
lexicographic comparison).

Rust's `HashMap` has an unspecified iteration order.  Everywhere that order
is observable (construction of the top-words heap in the fast variant, the
sort of `word_vec` in the slow variant) the model takes the iteration order
as an explicit parameter `σ`, constrained to be a permutation of the
canonical insertion-ordered association list.
-/

set_option maxRecDepth 10000

/-- `u8::is_ascii_alphabetic`: byte in `[A-Z] ∪ [a-z]`. -/
def isAsciiAlpha (b : Nat) : Bool :=
  (65 ≤ b && b ≤ 90) || (97 ≤ b && b ≤ 122)

/-- `u8::is_ascii_whitespace`, the separator test of `str::split_ascii_whitespace`
used by `analyze_text_fast`: exactly space, `\t`, `\n`, form feed and `\r`
(note: NOT vertical tab 0x0B, and none of the bytes 0x00-0x08, 0x0E-0x1F). -/
def isAsciiWs (b : Nat) : Bool :=
  b == 32 || b == 9 || b == 10 || b == 12 || b == 13

/-- ASCII fragment of `char::is_whitespace`, the separator test used by
`analyze_text_slow` (`str::lines` + `str::split_whitespace`): space and
0x09-0x0D (including vertical tab 0x0B).  `lines()` splits on `\n` and strips
a trailing `\r`; both bytes are whitespace here, so composing `lines` with
`split_whitespace` yields the same maximal runs as splitting the whole text
on this predicate.  Faithful for ASCII input (non-ASCII Unicode whitespace
is outside the model; the slow variant is only invoked on ASCII claims). -/
def isSlowWs (b : Nat) : Bool :=
  b == 32 || (9 ≤ b && b ≤ 13)

/-- Maximal-run tokenizer: `acc` holds the bytes of the current (reversed)
partial token.  A separator byte flushes the token if non-empty; end of
input flushes the final token. This is the splitting performed by Rust's
whitespace-split iterators. -/
def tokensAux (p : Nat → Bool) : List Nat → List Nat → List (List Nat)
  | [], acc => if acc.isEmpty then [] else [acc.reverse]
  | b :: t, acc =>
      if p b then
        if acc.isEmpty then tokensAux p t [] else acc.reverse :: tokensAux p t []
      else
        tokensAux p t (b :: acc)

/-- Raw tokens of `analyze_text_fast` (`text.split_ascii_whitespace()`). -/
def fastTokens (t : List Nat) : List (List Nat) := tokensAux isAsciiWs t []

/-- Raw tokens of `analyze_text_slow` (`text.lines()` then `split_whitespace()`),
on ASCII input. -/
def slowTokens (t : List Nat) : List (List Nat) := tokensAux isSlowWs t []

/-- Word normalization: keep the ASCII-alphabetic bytes, lowercase them with
`| 0x20`.  Matches the inner loop of `analyze_text_fast`; on ASCII it also
matches `word.to_lowercase().chars().filter(is_alphabetic)` in the slow
variant. -/
def normalizeWord (tok : List Nat) : List Nat :=
  (tok.filter isAsciiAlpha).map (fun b => b ||| 32)

/-- The stream of non-empty normalized words, in occurrence order. -/
def wordsOf (toks : List (List Nat)) : List (List Nat) :=
  (toks.map normalizeWord).filter (fun w => !w.isEmpty)

def fastWords (t : List Nat) : List (List Nat) := wordsOf (fastTokens t)

def slowWords (t : List Nat) : List (List Nat) := wordsOf (slowTokens t)

/-- Number of ASCII-alphabetic bytes of a token: the amount the fast
variant's `char_count` grows while scanning that token. -/
def alphaCount (tok : List Nat) : Nat := tok.countP isAsciiAlpha

/-- `char_count` of `analyze_text_fast`: incremented once per alphabetic byte
of each raw token. -/
def fastCharCount (t : List Nat) : Nat :=
  ((fastTokens t).map alphaCount).sum

/-- UTF-8 decoder: byte list to codepoint list.  Rust's `&str` guarantees
valid UTF-8, so only well-formed sequences matter; on malformed input the
result is arbitrary (truncated sequences are dropped). -/
def utf8Decode : List Nat → List Nat
  | [] => []
  | [b] => if b < 0x80 then [b] else []
  | [b, c1] =>
      if b < 0x80 then b :: utf8Decode [c1]
      else if b < 0xE0 then [(b - 0xC0) * 0x40 + (c1 - 0x80)]
      else []
  | [b, c1, c2] =>
      if b < 0x80 then b :: utf8Decode [c1, c2]
      else if b < 0xE0 then ((b - 0xC0) * 0x40 + (c1 - 0x80)) :: utf8Decode [c2]
      else if b < 0xF0 then [(b - 0xE0) * 0x1000 + (c1 - 0x80) * 0x40 + (c2 - 0x80)]
      else []
  | b :: c1 :: c2 :: c3 :: rest =>
      if b < 0x80 then b :: utf8Decode (c1 :: c2 :: c3 :: rest)
      else if b < 0xE0 then
        ((b - 0xC0) * 0x40 + (c1 - 0x80)) :: utf8Decode (c2 :: c3 :: rest)
      else if b < 0xF0 then
        ((b - 0xE0) * 0x1000 + (c1 - 0x80) * 0x40 + (c2 - 0x80)) :: utf8Decode (c3 :: rest)
      else
        ((b - 0xF0) * 0x40000 + (c1 - 0x80) * 0x1000 + (c2 - 0x80) * 0x40
          + (c3 - 0x80)) :: utf8Decode rest

/-- Rust's `char::is_alphabetic` (the Unicode Alphabetic property), on the
fragment of codepoints the development uses.  Below 0x100 this is exact:
the ASCII letters, U+00AA, U+00B5, U+00BA, and the Latin-1 letters
U+00C0-U+00FF minus the multiplication sign U+00D7 and the division sign
U+00F7 — in particular the non-ASCII letter é (U+00E9) IS alphabetic.
Codepoints of 0x100 and above are not modelled (mapped to false); every
theorem about the slow counter therefore either restricts the input to
ASCII or evaluates it at a concrete input whose codepoints lie below
0x100. -/
def charIsAlphabetic (c : Nat) : Bool :=
  isAsciiAlpha c || c == 0xAA || c == 0xB5 || c == 0xBA ||
    (0xC0 ≤ c && c ≤ 0xFF && !(c == 0xD7) && !(c == 0xF7))

/-- `char_count` of `analyze_text_slow`: counts `char::is_alphabetic`
(Unicode-alphabetic, NOT merely ASCII) chars over all of `text.lines()`.
`lines()` removes only `\n` bytes and a `\r` directly before a `\n`,
neither alphabetic, so this equals the alphabetic count over all decoded
characters of the input. -/
def slowCharCount (t : List Nat) : Nat := (utf8Decode t).countP charIsAlphabetic

/-- `*word_freq.entry(w).or_insert(0) += 1` on the canonical
insertion-ordered association-list view of the hash map. -/
def bump (w : List Nat) : List (List Nat × Nat) → List (List Nat × Nat)
  | [] => [(w, 1)]
  | (x, c) :: rest => if x = w then (x, c + 1) :: rest else (x, c) :: bump w rest

/-- The vocabulary (word → count association list, in insertion order)
built from a word stream. -/
def buildVocab (ws : List (List Nat)) : List (List Nat × Nat) :=
  ws.foldl (fun v w => bump w v) []

def fastVocab (t : List Nat) : List (List Nat × Nat) := buildVocab (fastWords t)

def slowVocab (t : List Nat) : List (List Nat × Nat) := buildVocab (slowWords t)

/-- Strict lexicographic order on byte lists: Rust's `String`/`[u8]` `Ord`.
(Normalized words are pure ASCII, where Rust's `String` order is byte order.) -/
def bytesLt : List Nat → List Nat → Bool
  | [], [] => false
  | [], _ :: _ => true
  | _ :: _, [] => false
  | a :: as, b :: bs => if a < b then true else if b < a then false else bytesLt as bs

/-- Rust's derived `Ord` on `(usize, String)` tuples: first component, then
second, lexicographically.  Used both by the top-words heap (pairs are
`(count, word)`) and the longest-words heap (pairs are `(length, word)`,
under `Reverse`). -/
def pairLt (x y : Nat × List Nat) : Bool :=
  if x.1 < y.1 then true
  else if y.1 < x.1 then false
  else bytesLt x.2 y.2

/-- The maximum element of a nonempty list under `pairLt` — what
`BinaryHeap::pop` returns.  (A later element only replaces the running
maximum when strictly greater, but the maximum of a list of distinct
elements is unique anyway.) -/
def listMaximum : List (Nat × List Nat) → Option (Nat × List Nat)
  | [] => none
  | x :: xs => some (xs.foldl (fun a b => if pairLt a b then b else a) x)

/-- `for _ in 0..k { if let Some((count, word)) = heap.pop() { push (word, count) } }`:
repeatedly remove the maximum `(count, word)` pair. The result is a function
of the multiset alone, which is why the fast variant's `top_words` does not
depend on the hash map's iteration order. -/
def heapPopAll : Nat → List (Nat × List Nat) → List (List Nat × Nat)
  | 0, _ => []
  | k + 1, σ =>
      match listMaximum σ with
      | none => []
      | some m => (m.2, m.1) :: heapPopAll k (σ.erase m)

/-- `(count, word)` pairs of a vocabulary, as fed into the fast variant's
top-words heap (`word_freq.into_iter().map(|(w, c)| (c, w))`). -/
def vocabPairs (v : List (List Nat × Nat)) : List (Nat × List Nat) :=
  v.map (fun e => (e.2, e.1))

/-- `top_words` of `analyze_text_fast`, with the hash map's iteration order
`σ` explicit (it is provably irrelevant). -/
def fastTopWords (σ : List (Nat × List Nat)) : List (List Nat × Nat) :=
  heapPopAll 10 σ

/-- Insert into a `pairLt`-descending list (strictly descending when the
input has no duplicates). -/
def insDesc (x : Nat × List Nat) : List (Nat × List Nat) → List (Nat × List Nat)
  | [] => [x]
  | y :: ys => if pairLt y x then x :: y :: ys else y :: insDesc x ys

/-- Sort into `pairLt`-descending order. -/
def sortPairsDesc (l : List (Nat × List Nat)) : List (Nat × List Nat) :=
  l.foldr insDesc []

/-- Reference description of the fast variant's top-words list: the whole
vocabulary sorted by `(count, word)` descending, truncated to 10, each entry
flipped back to `(word, count)`. -/
def topOf (v : List (List Nat × Nat)) : List (List Nat × Nat) :=
  ((sortPairsDesc (vocabPairs v)).take 10).map (fun m => (m.2, m.1))

/-- Insert into a `pairLt`-ascending list (duplicates allowed; an equal
element is inserted after the incumbents, which does not matter: the list
stands for the longest-heap's multiset of `(length, word)` entries). -/
def insAsc (x : Nat × List Nat) : List (Nat × List Nat) → List (Nat × List Nat)
  | [] => [x]
  | y :: ys => if pairLt x y then x :: y :: ys else y :: insAsc x ys

/-- One `longest_words_heap` step of `analyze_text_fast` for a non-empty
normalized word.  State: the heap's multiset of `Reverse((len, word))`
entries, kept as a `pairLt`-ascending list, whose head is the element
`peek`/`pop` act on (the `(len, word)`-minimal entry).
`if heap.len() < 5 push; else if len > min_len { pop; push }`. -/
def offer (x : Nat × List Nat) (s : List (Nat × List Nat)) : List (Nat × List Nat) :=
  if s.length < 5 then insAsc x s
  else
    match s with
    | [] => [x]
    | m :: rest => if m.1 < x.1 then insAsc x rest else m :: rest

/-- Final longest-heap state after offering every non-empty normalized word
(each occurrence separately — the code offers before deduplication). -/
def longestState (ws : List (List Nat)) : List (Nat × List Nat) :=
  ws.foldl (fun s w => offer (w.length, w) s) []

/-- `longest_words` of `analyze_text_fast`: heap contents sorted by length
descending.  The source's `sort_unstable_by(|a, b| b.0.cmp(&a.0))` leaves
the relative order of distinct equal-length words unspecified (it depends on
the heap's internal layout); the model orders ties by word descending
(reverse of the ascending state).  No theorem below depends on the order of
distinct equal-length entries. -/
def fastLongestWords (t : List Nat) : List (List Nat) :=
  (longestState (fastWords t)).reverse.map (fun m => m.2)

/-- Stable insert for the slow variant's
`all_words.sort_by(|a, b| b.len().cmp(&a.len()))`: length descending, equal
lengths keep occurrence order. -/
def insLenDesc (x : List Nat) : List (List Nat) → List (List Nat)
  | [] => [x]
  | y :: ys => if y.length ≤ x.length then x :: y :: ys else y :: insLenDesc x ys

/-- Stable sort by length descending (`foldr` insert = the unique stable
sort, agreeing with Rust's stable `sort_by`). -/
def sortLenDesc (ws : List (List Nat)) : List (List Nat) :=
  ws.foldr insLenDesc []

/-- `longest_words` of `analyze_text_slow`: every word occurrence, stably
sorted by length descending, first 5.  (Duplicate occurrences are kept.) -/
def slowLongestWords (t : List Nat) : List (List Nat) :=
  (sortLenDesc (slowWords t)).take 5

/-- Stable insert for the slow variant's
`word_vec.sort_by(|a, b| b.1.cmp(&a.1))`: count descending, ties keep the
order of the input list (the hash map's iteration order). -/
def insCntDesc (x : List Nat × Nat) : List (List Nat × Nat) → List (List Nat × Nat)
  | [] => [x]
  | y :: ys => if y.2 ≤ x.2 then x :: y :: ys else y :: insCntDesc x ys

/-- `top_words` of `analyze_text_slow`: the vocabulary in hash-iteration
order `σ`, stably sorted by count descending, first 10.  Ties on count stay
in `σ`'s order, so the result depends on `σ`. -/
def slowTopWords (σ : List (List Nat × Nat)) : List (List Nat × Nat) :=
  (σ.foldr insCntDesc []).take 10

/-- The observable fields of `TextStats` (the wall-clock `time_ms` field is
excluded: it is timing, not a function of the input). -/
structure TextStats where
  wordCount : Nat
  charCount : Nat
  topWords : List (List Nat × Nat)
  longestWords : List (List Nat)
deriving DecidableEq

/-- `analyze_text_fast`, hash-iteration order `σ` explicit. -/
def fastStats (t : List Nat) (σ : List (Nat × List Nat)) : TextStats :=
  { wordCount := (fastVocab t).length
    charCount := fastCharCount t
    topWords := fastTopWords σ
    longestWords := fastLongestWords t }

/-- `analyze_text_fast` at the canonical (insertion-order) iteration order;
`fast_deterministic` below shows the choice does not matter. -/
def fastStatsC (t : List Nat) : TextStats := fastStats t (vocabPairs (fastVocab t))

/-- `analyze_text_slow`, hash-iteration order `σ` explicit (here it is
observable: count-ties in `top_words` stay in `σ`'s order). -/
def slowStats (t : List Nat) (σ : List (List Nat × Nat)) : TextStats :=
  { wordCount := (slowVocab t).length
    charCount := slowCharCount t
    topWords := slowTopWords σ
    longestWords := slowLongestWords t }

/-- `analyze_text_slow` at the canonical insertion-order iteration order. -/
def slowStatsC (t : List Nat) : TextStats := slowStats t (slowVocab t)

/-- Byte list of an ASCII string literal (test inputs). -/
def strBytes (s : String) : List Nat := s.toList.map Char.toNat

/-- Modelled from the spec (§3, "Raw token"): "A maximal run of
non-whitespace bytes.  Tokens are delimited by runs of whitespace bytes;
zero-length runs do not yield tokens."  Split the buffer at every separator
byte and drop the empty runs. -/
def specSplit (p : Nat → Bool) : List Nat → List (List Nat)
  | [] => [[]]
  | b :: t =>
      if p b then [] :: specSplit p t
      else
        match specSplit p t with
        | [] => [[b]]
        | g :: gs => (b :: g) :: gs

def specTokens (p : Nat → Bool) (t : List Nat) : List (List Nat) :=
  (specSplit p t).filter (fun g => !g.isEmpty)


/-! ## Order lemmas for the tuple comparison -/

theorem bytesLt_asymm : ∀ {a b : List Nat}, bytesLt a b = true → bytesLt b a = false
  | [], [], h => by simp [bytesLt] at h
  | [], _ :: _, _ => by simp [bytesLt]
  | _ :: _, [], h => by simp [bytesLt] at h
  | x :: as, y :: bs, h => by
      simp only [bytesLt] at h ⊢
      rcases Nat.lt_trichotomy x y with hlt | heq | hgt
      · have : ¬ y < x := Nat.lt_asymm hlt
        simp [this, Nat.ne_of_gt hlt, hlt]
      · subst heq
        simp only [Nat.lt_irrefl, if_false] at h ⊢
        exact bytesLt_asymm h
      · simp [hgt, Nat.lt_asymm hgt] at h

theorem bytesLt_irrefl (a : List Nat) : bytesLt a a = false := by
  cases h : bytesLt a a with
  | false => rfl
  | true => exact absurd ((bytesLt_asymm h).symm.trans h) Bool.false_ne_true

theorem bytesLt_trans :
    ∀ {a b c : List Nat}, bytesLt a b = true → bytesLt b c = true → bytesLt a c = true
  | [], _, _ :: _, _, _ => by simp [bytesLt]
  | [], _ :: _, [], _, h2 => by simp [bytesLt] at h2
  | [], [], [], h1, _ => by simp [bytesLt] at h1
  | _ :: _, [], _, h1, _ => by simp [bytesLt] at h1
  | _ :: _, _ :: _, [], _, h2 => by simp [bytesLt] at h2
  | x :: as, y :: bs, z :: cs, h1, h2 => by
      simp only [bytesLt] at h1 h2 ⊢
      rcases Nat.lt_trichotomy x y with hxy | hxy | hxy <;>
        rcases Nat.lt_trichotomy y z with hyz | hyz | hyz <;>
          first
            | (subst hxy; subst hyz
               simp only [Nat.lt_irrefl, if_false] at h1 h2 ⊢
               exact bytesLt_trans h1 h2)
            | ((try subst hxy); (try subst hyz); simp_all; omega)
            | ((try subst hxy); (try subst hyz); simp_all)

theorem bytesLt_eq_of_not :
    ∀ {a b : List Nat}, bytesLt a b = false → bytesLt b a = false → a = b
  | [], [], _, _ => rfl
  | [], _ :: _, h1, _ => by simp [bytesLt] at h1
  | _ :: _, [], _, h2 => by simp [bytesLt] at h2
  | x :: as, y :: bs, h1, h2 => by
      simp only [bytesLt] at h1 h2
      rcases Nat.lt_trichotomy x y with hxy | hxy | hxy
      · simp [hxy] at h1
      · subst hxy
        simp only [Nat.lt_irrefl, if_false] at h1 h2
        exact congrArg (x :: ·) (bytesLt_eq_of_not h1 h2)
      · simp [hxy] at h2

theorem pairLt_iff {x y : Nat × List Nat} :
    pairLt x y = true ↔ x.1 < y.1 ∨ (x.1 = y.1 ∧ bytesLt x.2 y.2 = true) := by
  unfold pairLt
  split_ifs with h1 h2
  · simp [h1]
  · simp only [Bool.false_eq_true, false_iff]
    rintro (h | ⟨he, _⟩)
    · exact h1 h
    · omega
  · have he : x.1 = y.1 := by omega
    simp [he, Nat.lt_irrefl]

theorem pairLt_false_iff {x y : Nat × List Nat} :
    pairLt x y = false ↔ ¬ (x.1 < y.1 ∨ (x.1 = y.1 ∧ bytesLt x.2 y.2 = true)) := by
  rw [Bool.eq_false_iff, Ne, pairLt_iff]

theorem pairLt_asymm {x y : Nat × List Nat} (h : pairLt x y = true) : pairLt y x = false := by
  rw [pairLt_iff] at h
  rw [pairLt_false_iff]
  rintro (hlt | ⟨he, hb⟩)
  · rcases h with h | ⟨he, _⟩
    · omega
    · omega
  · rcases h with h | ⟨he2, hb2⟩
    · omega
    · exact absurd hb2 (by simp [bytesLt_asymm hb])

theorem pairLt_irrefl (x : Nat × List Nat) : pairLt x x = false := by
  cases h : pairLt x x with
  | false => rfl
  | true => exact absurd ((pairLt_asymm h).symm.trans h) Bool.false_ne_true

theorem pairLt_trans {x y z : Nat × List Nat}
    (h1 : pairLt x y = true) (h2 : pairLt y z = true) : pairLt x z = true := by
  rw [pairLt_iff] at h1 h2 ⊢
  rcases h1 with h1 | ⟨he1, hb1⟩
  · rcases h2 with h2 | ⟨he2, _⟩
    · exact Or.inl (Nat.lt_trans h1 h2)
    · exact Or.inl (he2 ▸ h1)
  · rcases h2 with h2 | ⟨he2, hb2⟩
    · exact Or.inl (he1 ▸ h2)
    · exact Or.inr ⟨he1.trans he2, bytesLt_trans hb1 hb2⟩

theorem pairLt_eq_of_not {x y : Nat × List Nat}
    (h1 : pairLt x y = false) (h2 : pairLt y x = false) : x = y := by
  rw [pairLt_false_iff] at h1 h2
  push_neg at h1 h2
  have he : x.1 = y.1 := by omega
  have hb1 : bytesLt x.2 y.2 = false := by
    cases hb : bytesLt x.2 y.2 with
    | false => rfl
    | true => exact absurd hb (by simp [h1.2 he])
  have hb2 : bytesLt y.2 x.2 = false := by
    cases hb : bytesLt y.2 x.2 with
    | false => rfl
    | true => exact absurd hb (by simp [h2.2 he.symm])
  exact Prod.ext he (bytesLt_eq_of_not hb1 hb2)

theorem fst_le_of_pairLt_eq_false {x y : Nat × List Nat} (h : pairLt y x = false) :
    x.1 ≤ y.1 := by
  rw [pairLt_false_iff] at h
  push_neg at h
  exact h.1

/-! ## The pop loop extracts maxima: characterization and permutation invariance -/

theorem foldMax_mem (x : Nat × List Nat) (xs : List (Nat × List Nat)) :
    xs.foldl (fun a b => if pairLt a b then b else a) x ∈ x :: xs := by
  induction xs generalizing x with
  | nil => simp
  | cons b bs ih =>
      simp only [List.foldl_cons]
      rcases List.mem_cons.mp (ih (if pairLt x b then b else x)) with h | h
      · rw [h]
        split
        · simp
        · simp
      · simp [h]

theorem foldMax_ge (x : Nat × List Nat) (xs : List (Nat × List Nat)) :
    ∀ y ∈ x :: xs, pairLt (xs.foldl (fun a b => if pairLt a b then b else a) x) y = false := by
  induction xs generalizing x with
  | nil =>
      intro y hy
      rcases List.mem_singleton.mp hy with rfl
      exact pairLt_irrefl y
  | cons b bs ih =>
      intro y hy
      simp only [List.foldl_cons]
      by_cases hf : pairLt x b = true
      · rw [if_pos hf]
        have hMb : pairLt (bs.foldl (fun a b => if pairLt a b then b else a) b) b = false :=
          ih b b (List.mem_cons_self b bs)
        rcases List.mem_cons.mp hy with rfl | hy'
        · cases hMy : pairLt (bs.foldl (fun a b => if pairLt a b then b else a) b) y with
          | false => rfl
          | true => exact absurd (pairLt_trans hMy hf) (by simp [hMb])
        · rcases List.mem_cons.mp hy' with rfl | hy''
          · exact hMb
          · exact ih b y (List.mem_cons_of_mem b hy'')
      · rw [if_neg hf]
        have hMx : pairLt (bs.foldl (fun a b => if pairLt a b then b else a) x) x = false :=
          ih x x (List.mem_cons_self x bs)
        have hxb : pairLt x b = false := by simpa using hf
        rcases List.mem_cons.mp hy with rfl | hy'
        · exact hMx
        · rcases List.mem_cons.mp hy' with rfl | hy''
          · cases hMy : pairLt (bs.foldl (fun a b => if pairLt a b then b else a) x) y with
            | false => rfl
            | true =>
                cases hyx : pairLt y x with
                | true => exact absurd (pairLt_trans hMy hyx) (by simp [hMx])
                | false =>
                    have : y = x := pairLt_eq_of_not hyx hxb
                    subst this
                    exact absurd hMy (by simp [hMx])
          · exact ih x y (List.mem_cons_of_mem x hy'')

theorem listMaximum_mem {l : List (Nat × List Nat)} {m : Nat × List Nat}
    (h : listMaximum l = some m) : m ∈ l := by
  cases l with
  | nil => simp [listMaximum] at h
  | cons x xs =>
      simp only [listMaximum, Option.some.injEq] at h
      exact h ▸ foldMax_mem x xs

theorem listMaximum_ge {l : List (Nat × List Nat)} {m : Nat × List Nat}
    (h : listMaximum l = some m) : ∀ y ∈ l, pairLt m y = false := by
  cases l with
  | nil => simp [listMaximum] at h
  | cons x xs =>
      simp only [listMaximum, Option.some.injEq] at h
      exact h ▸ foldMax_ge x xs

theorem listMaximum_perm {l l' : List (Nat × List Nat)} (h : l.Perm l') :
    listMaximum l = listMaximum l' := by
  cases hl : listMaximum l with
  | none =>
      cases l with
      | nil =>
          have : l' = [] := h.symm.eq_nil
          simp [this, listMaximum]
      | cons x xs => simp [listMaximum] at hl
  | some m =>
      cases hl' : listMaximum l' with
      | none =>
          cases l' with
          | nil => exact absurd (h.eq_nil ▸ hl) (by simp [listMaximum])
          | cons x xs => simp [listMaximum] at hl'
      | some m' =>
          have h1 : pairLt m m' = false :=
            listMaximum_ge hl m' (h.mem_iff.mpr (listMaximum_mem hl'))
          have h2 : pairLt m' m = false :=
            listMaximum_ge hl' m (h.mem_iff.mp (listMaximum_mem hl))
          rw [pairLt_eq_of_not h1 h2]

theorem erase_inst_eq : ∀ (l : List (Nat × List Nat)) (m : Nat × List Nat),
    l.erase m = @List.erase _ instBEqOfDecidableEq l m
  | [], _ => rfl
  | x :: xs, m => by
      by_cases hx : x = m
      · subst hx
        simp [List.erase_cons, instBEqOfDecidableEq]
      · simp [List.erase_cons, hx, erase_inst_eq xs m, instBEqOfDecidableEq]

theorem heapPopAll_perm :
    ∀ (k : Nat) {σ σ' : List (Nat × List Nat)}, σ.Perm σ' →
      heapPopAll k σ = heapPopAll k σ'
  | 0, _, _, _ => rfl
  | k + 1, σ, σ', h => by
      rw [heapPopAll, heapPopAll, listMaximum_perm h]
      cases hm : listMaximum σ' with
      | none => rfl
      | some m =>
          show (m.2, m.1) :: heapPopAll k (σ.erase m) = (m.2, m.1) :: heapPopAll k (σ'.erase m)
          rw [erase_inst_eq σ m, erase_inst_eq σ' m]
          exact congrArg (fun l => (m.2, m.1) :: l) (heapPopAll_perm k (h.erase m))

theorem listMaximum_cons_of_max {x : Nat × List Nat} {xs : List (Nat × List Nat)}
    (h : ∀ y ∈ xs, pairLt y x = true) : listMaximum (x :: xs) = some x := by
  cases hm : listMaximum (x :: xs) with
  | none => simp [listMaximum] at hm
  | some m =>
      rcases List.mem_cons.mp (listMaximum_mem hm) with rfl | hmem
      · rfl
      · exact absurd (h m hmem) (by simp [listMaximum_ge hm x (List.mem_cons_self x xs)])

/-- On a strictly `pairLt`-descending list the pop loop returns the first
`k` entries, flipped. -/
theorem heapPopAll_sorted :
    ∀ (k : Nat) (l : List (Nat × List Nat)),
      l.Pairwise (fun a b => pairLt b a = true) →
      heapPopAll k l = (l.take k).map (fun m => (m.2, m.1))
  | 0, l, _ => by simp [heapPopAll]
  | k + 1, [], _ => by simp [heapPopAll, listMaximum]
  | k + 1, x :: xs, h => by
      rcases List.pairwise_cons.mp h with ⟨hx, hxs⟩
      rw [heapPopAll, listMaximum_cons_of_max hx]
      show (x.2, x.1) :: heapPopAll k ((x :: xs).erase x) = _
      rw [List.erase_cons_head, heapPopAll_sorted k xs hxs, List.take_succ_cons, List.map_cons]

/-! ## Insertion sorts: permutation and sortedness -/

theorem insDesc_perm (x : Nat × List Nat) :
    ∀ l : List (Nat × List Nat), (insDesc x l).Perm (x :: l)
  | [] => List.Perm.refl _
  | y :: ys => by
      unfold insDesc
      split
      · exact List.Perm.refl _
      · exact ((insDesc_perm x ys).cons y).trans (List.Perm.swap x y ys)

theorem sortPairsDesc_perm : ∀ l : List (Nat × List Nat), (sortPairsDesc l).Perm l
  | [] => List.Perm.refl _
  | x :: xs => by
      unfold sortPairsDesc at *
      simpa using (insDesc_perm x (xs.foldr insDesc [])).trans
        ((sortPairsDesc_perm xs).cons x)

theorem mem_insDesc {z x : Nat × List Nat} {l : List (Nat × List Nat)} :
    z ∈ insDesc x l ↔ z = x ∨ z ∈ l := by
  rw [(insDesc_perm x l).mem_iff, List.mem_cons]

theorem insDesc_sorted {x : Nat × List Nat} :
    ∀ {l : List (Nat × List Nat)}, l.Pairwise (fun a b => pairLt b a = true) →
      x ∉ l → (insDesc x l).Pairwise (fun a b => pairLt b a = true)
  | [], _, _ => List.pairwise_singleton _ x
  | y :: ys, hl, hx => by
      rcases List.pairwise_cons.mp hl with ⟨hy, hys⟩
      unfold insDesc
      split
      · rename_i hyx
        refine List.pairwise_cons.mpr ⟨?_, hl⟩
        intro z hz
        rcases List.mem_cons.mp hz with rfl | hz'
        · exact hyx
        · exact pairLt_trans (hy z hz') hyx
      · rename_i hyx
        have hxy : pairLt x y = true := by
          cases hc : pairLt x y with
          | true => rfl
          | false =>
              exact absurd (pairLt_eq_of_not hc (by simpa using hyx)).symm
                (by simp [List.mem_cons] at hx; exact fun h => (hx.1 h.symm).elim)
        refine List.pairwise_cons.mpr ⟨?_, insDesc_sorted hys (fun h => hx (List.mem_cons_of_mem y h))⟩
        intro z hz
        rcases mem_insDesc.mp hz with rfl | hz'
        · exact hxy
        · exact hy z hz'

theorem sortPairsDesc_sorted :
    ∀ {l : List (Nat × List Nat)}, l.Nodup →
      (sortPairsDesc l).Pairwise (fun a b => pairLt b a = true)
  | [], _ => List.Pairwise.nil
  | x :: xs, h => by
      rcases List.nodup_cons.mp h with ⟨hx, hxs⟩
      unfold sortPairsDesc at *
      exact insDesc_sorted (sortPairsDesc_sorted hxs)
        (fun hmem => hx ((sortPairsDesc_perm xs).mem_iff.mp hmem))

/-! ## Vocabulary lemmas -/

theorem bump_keys (w : List Nat) : ∀ v : List (List Nat × Nat),
    (bump w v).map Prod.fst =
      if w ∈ v.map Prod.fst then v.map Prod.fst else v.map Prod.fst ++ [w]
  | [] => by simp [bump]
  | (x, c) :: rest => by
      by_cases hx : x = w
      · subst hx
        simp [bump]
      · have hwx : ¬ w = x := fun h => hx h.symm
        simp only [bump, if_neg hx, List.map_cons, bump_keys w rest, List.mem_cons, hwx,
          false_or]
        by_cases hw : w ∈ rest.map Prod.fst
        · simp [hw]
        · simp [hw]

theorem foldl_bump_keys_nodup :
    ∀ (ws : List (List Nat)) (v : List (List Nat × Nat)),
      (v.map Prod.fst).Nodup → ((ws.foldl (fun v w => bump w v) v).map Prod.fst).Nodup
  | [], _, h => h
  | w :: ws, v, h => by
      apply foldl_bump_keys_nodup ws
      rw [bump_keys]
      by_cases hw : w ∈ v.map Prod.fst
      · rwa [if_pos hw]
      · rw [if_neg hw]
        simp [List.nodup_append, h, hw]

theorem buildVocab_keys_nodup (ws : List (List Nat)) :
    ((buildVocab ws).map Prod.fst).Nodup :=
  foldl_bump_keys_nodup ws [] (by simp)

theorem vocabPairs_nodup {v : List (List Nat × Nat)} (h : (v.map Prod.fst).Nodup) :
    (vocabPairs v).Nodup := by
  have h2 : ((vocabPairs v).map Prod.snd).Nodup := by
    have he : (vocabPairs v).map Prod.snd = v.map Prod.fst := by
      simp [vocabPairs]
    rwa [he]
  exact h2.of_map

theorem bump_sum (w : List Nat) : ∀ v : List (List Nat × Nat),
    ((bump w v).map Prod.snd).sum = ((v.map Prod.snd).sum) + 1
  | [] => by simp [bump]
  | (x, c) :: rest => by
      by_cases hx : x = w
      · subst hx
        simp [bump]
        omega
      · simp only [bump, if_neg hx, List.map_cons, List.sum_cons, bump_sum w rest]
        omega

theorem foldl_bump_sum :
    ∀ (ws : List (List Nat)) (v : List (List Nat × Nat)),
      (((ws.foldl (fun v w => bump w v) v)).map Prod.snd).sum
        = (v.map Prod.snd).sum + ws.length
  | [], _ => rfl
  | w :: ws, v => by
      simp only [List.foldl_cons, foldl_bump_sum ws (bump w v), bump_sum, List.length_cons]
      omega

theorem buildVocab_sum (ws : List (List Nat)) :
    ((buildVocab ws).map Prod.snd).sum = ws.length := by
  simpa using foldl_bump_sum ws []

/-! ## Tokenizer lemmas -/

theorem tokensAux_countP {p q : Nat → Bool} (hpq : ∀ b, p b = true → q b = false) :
    ∀ (t acc : List Nat),
      ((tokensAux p t acc).map (fun tok => tok.countP q)).sum
        = t.countP q + acc.countP q := by
  intro t
  induction t with
  | nil =>
      intro acc
      by_cases h : acc.isEmpty
      · have : acc = [] := List.isEmpty_iff.mp h
        subst this
        simp [tokensAux]
      · simp only [tokensAux, if_neg h, List.map_cons, List.map_nil, List.sum_cons,
          List.sum_nil, List.countP_nil]
        rw [(List.reverse_perm acc).countP_eq]
        omega
  | cons b t ih =>
      intro acc
      by_cases hb : p b = true
      · have hqb : q b = false := hpq b hb
        by_cases ha : acc.isEmpty
        · have : acc = [] := List.isEmpty_iff.mp ha
          subst this
          simp [tokensAux, hb, ih [], List.countP_cons, hqb]
        · simp only [tokensAux, if_pos hb, if_neg ha, List.map_cons, List.sum_cons,
            ih [], List.countP_cons, hqb, List.countP_nil, Bool.false_eq_true, if_false]
          rw [(List.reverse_perm acc).countP_eq]
          omega
      · simp only [tokensAux, if_neg hb, ih (b :: acc), List.countP_cons]
        omega

theorem ws_not_alpha : ∀ b : Nat, isAsciiWs b = true → isAsciiAlpha b = false := by
  intro b hb
  simp only [isAsciiWs, Bool.or_eq_true, beq_iff_eq] at hb
  rw [Bool.eq_false_iff]
  intro hc
  simp only [isAsciiAlpha, Bool.or_eq_true, Bool.and_eq_true, decide_eq_true_eq] at hc
  omega

theorem slow_ws_not_alpha : ∀ b : Nat, isSlowWs b = true → isAsciiAlpha b = false := by
  intro b hb
  simp only [isSlowWs, Bool.or_eq_true, Bool.and_eq_true, beq_iff_eq, decide_eq_true_eq] at hb
  rw [Bool.eq_false_iff]
  intro hc
  simp only [isAsciiAlpha, Bool.or_eq_true, Bool.and_eq_true, decide_eq_true_eq] at hc
  omega

/-- The fast char counter equals the count of alphabetic bytes of the whole
input: whitespace runs contain no alphabetic bytes. -/
theorem fastCharCount_countP (t : List Nat) :
    fastCharCount t = t.countP isAsciiAlpha := by
  have h := tokensAux_countP ws_not_alpha t []
  simpa [fastCharCount, fastTokens, alphaCount] using h

theorem tokensAux_all_ws {p : Nat → Bool} :
    ∀ t : List Nat, (∀ b ∈ t, p b = true) → tokensAux p t [] = []
  | [], _ => rfl
  | b :: t, h => by
      simp [tokensAux, h b (List.mem_cons_self b t),
        tokensAux_all_ws t fun x hx => h x (List.mem_cons_of_mem _ hx)]

theorem tokensAux_congr {p q : Nat → Bool} :
    ∀ (t acc : List Nat), (∀ b ∈ t, p b = q b) → tokensAux p t acc = tokensAux q t acc := by
  intro t
  induction t with
  | nil => intro acc _; rfl
  | cons b t ih =>
      intro acc h
      have hb : p b = q b := h b (List.mem_cons_self b t)
      have ht : ∀ x ∈ t, p x = q x := fun x hx => h x (List.mem_cons_of_mem _ hx)
      simp only [tokensAux, hb]
      by_cases hq : q b = true
      · simp only [if_pos hq]
        by_cases ha : acc.isEmpty
        · simp [ha, ih [] ht]
        · simp [ha, ih [] ht]
      · have hq' : q b = false := by simpa using hq
        simp [hq', ih (b :: acc) ht]

theorem specSplit_ne_nil (p : Nat → Bool) : ∀ t : List Nat, specSplit p t ≠ []
  | [] => by simp [specSplit]
  | b :: t => by
      simp only [specSplit]
      split
      · simp
      · split
        · simp
        · simp

theorem tokensAux_eq_specSplit (p : Nat → Bool) :
    ∀ (t acc : List Nat),
      tokensAux p t acc =
        match specSplit p t with
        | [] => []
        | g :: gs => ((acc.reverse ++ g) :: gs).filter (fun x => !x.isEmpty) := by
  intro t
  induction t with
  | nil =>
      intro acc
      by_cases h : acc.isEmpty
      · have : acc = [] := List.isEmpty_iff.mp h
        subst this
        simp [tokensAux, specSplit]
      · have : acc.reverse ≠ [] := by
          simp only [ne_eq, List.reverse_eq_nil_iff]
          exact fun hh => h (by simp [hh])
        simp [tokensAux, specSplit, h, List.filter_cons, List.isEmpty_iff, this]
  | cons b t ih =>
      intro acc
      by_cases hb : p b = true
      · have hsplit : specSplit p (b :: t) = [] :: specSplit p t := by
          simp [specSplit, hb]
        rw [hsplit]
        rcases hs : specSplit p t with _ | ⟨g, gs⟩
        · exact absurd hs (specSplit_ne_nil p t)
        · simp only [tokensAux, if_pos hb]
          by_cases ha : acc.isEmpty
          · have : acc = [] := List.isEmpty_iff.mp ha
            subst this
            rw [ih []]
            rw [hs]
            simp [List.filter_cons]
          · have hne : (acc.reverse).isEmpty = false := by
              rcases acc with _ | ⟨x, xs⟩
              · simp at ha
              · simp [List.isEmpty_iff]
            have hanil : acc ≠ [] := by
              simpa [List.isEmpty_iff] using ha
            rw [if_neg ha, ih [], hs]
            simp only [List.filter_cons, List.nil_append, hne]
            simp [hanil]
      · have hsplit :
            specSplit p (b :: t) =
              match specSplit p t with
              | [] => [[b]]
              | g :: gs => (b :: g) :: gs := by
          simp [specSplit, hb]
        rcases hs : specSplit p t with _ | ⟨g, gs⟩
        · exact absurd hs (specSplit_ne_nil p t)
        · rw [hsplit, hs]
          simp only [tokensAux, if_neg hb, ih (b :: acc), hs, List.reverse_cons]
          simp [List.append_assoc]

/-- The tokenizer computes exactly the spec's "maximal runs of
non-whitespace bytes". -/
theorem tokensAux_eq_specTokens (p : Nat → Bool) (t : List Nat) :
    tokensAux p t [] = specTokens p t := by
  rw [tokensAux_eq_specSplit p t []]
  rcases hs : specSplit p t with _ | ⟨g, gs⟩
  · exact absurd hs (specSplit_ne_nil p t)
  · simp [specTokens, hs]

/-! ## Longest-set lemmas -/

theorem insAsc_length (x : Nat × List Nat) :
    ∀ s : List (Nat × List Nat), (insAsc x s).length = s.length + 1
  | [] => rfl
  | y :: ys => by
      unfold insAsc
      split
      · rfl
      · simp [insAsc_length x ys]

theorem insAsc_perm (x : Nat × List Nat) :
    ∀ s : List (Nat × List Nat), (insAsc x s).Perm (x :: s)
  | [] => List.Perm.refl _
  | y :: ys => by
      unfold insAsc
      split
      · exact List.Perm.refl _
      · exact ((insAsc_perm x ys).cons y).trans (List.Perm.swap x y ys)

theorem mem_insAsc {z x : Nat × List Nat} {s : List (Nat × List Nat)} :
    z ∈ insAsc x s ↔ z = x ∨ z ∈ s := by
  rw [(insAsc_perm x s).mem_iff, List.mem_cons]

theorem insAsc_sorted {x : Nat × List Nat} :
    ∀ {s : List (Nat × List Nat)}, s.Pairwise (fun a b => pairLt b a = false) →
      (insAsc x s).Pairwise (fun a b => pairLt b a = false)
  | [], _ => List.pairwise_singleton _ x
  | y :: ys, hl => by
      rcases List.pairwise_cons.mp hl with ⟨hy, hys⟩
      unfold insAsc
      split
      · rename_i hxy
        refine List.pairwise_cons.mpr ⟨?_, hl⟩
        intro z hz
        rcases List.mem_cons.mp hz with rfl | hz'
        · exact pairLt_asymm hxy
        · cases hc : pairLt z x with
          | false => rfl
          | true => exact absurd (pairLt_trans hc hxy) (by simp [hy z hz'])
      · rename_i hxy
        refine List.pairwise_cons.mpr ⟨?_, insAsc_sorted hys⟩
        intro z hz
        rcases mem_insAsc.mp hz with rfl | hz'
        · simpa using hxy
        · exact hy z hz'

theorem mem_offer {z x : Nat × List Nat} {s : List (Nat × List Nat)}
    (hz : z ∈ offer x s) : z = x ∨ z ∈ s := by
  unfold offer at hz
  by_cases hlen : s.length < 5
  · rw [if_pos hlen] at hz
    exact mem_insAsc.mp hz
  · rw [if_neg hlen] at hz
    rcases s with _ | ⟨m, rest⟩
    · simpa using hz
    · change z ∈ (if m.1 < x.1 then insAsc x rest else m :: rest) at hz
      by_cases hml : m.1 < x.1
      · rw [if_pos hml] at hz
        rcases mem_insAsc.mp hz with rfl | hz'
        · exact Or.inl rfl
        · exact Or.inr (List.mem_cons_of_mem m hz')
      · rw [if_neg hml] at hz
        exact Or.inr hz

theorem offer_sorted {x : Nat × List Nat} {s : List (Nat × List Nat)}
    (hs : s.Pairwise (fun a b => pairLt b a = false)) :
    (offer x s).Pairwise (fun a b => pairLt b a = false) := by
  unfold offer
  by_cases hlen : s.length < 5
  · rw [if_pos hlen]
    exact insAsc_sorted hs
  · rw [if_neg hlen]
    rcases s with _ | ⟨m, rest⟩
    · exact List.pairwise_singleton _ x
    · show (if m.1 < x.1 then insAsc x rest else m :: rest).Pairwise
        (fun a b => pairLt b a = false)
      split
      · exact insAsc_sorted (List.pairwise_cons.mp hs).2
      · exact hs

theorem offer_length {x : Nat × List Nat} {s : List (Nat × List Nat)} (h : s.length ≤ 5) :
    (offer x s).length = if s.length < 5 then s.length + 1 else s.length := by
  unfold offer
  split
  · rw [insAsc_length]
  · rename_i hlt
    rcases s with _ | ⟨m, rest⟩
    · simp at hlt
    · show (if m.1 < x.1 then insAsc x rest else m :: rest).length = _
      split
      · simp [insAsc_length]
      · rfl

theorem longestState_aux_length :
    ∀ (ws : List (List Nat)) (s : List (Nat × List Nat)), s.length ≤ 5 →
      (ws.foldl (fun s w => offer (w.length, w) s) s).length = min 5 (s.length + ws.length)
  | [], s, h => by simp [Nat.min_eq_right h]
  | w :: ws, s, h => by
      simp only [List.foldl_cons]
      by_cases hlt : s.length < 5
      · have h5 : (offer (w.length, w) s).length = s.length + 1 := by
          rw [offer_length h, if_pos hlt]
        rw [longestState_aux_length ws _ (by omega)]
        rw [h5]
        simp only [List.length_cons]
        omega
      · have h5 : (offer (w.length, w) s).length = s.length := by
          rw [offer_length h, if_neg hlt]
        rw [longestState_aux_length ws _ (by omega)]
        rw [h5]
        simp only [List.length_cons]
        omega

/-- The longest-set always holds `min 5 (number of word occurrences)`
entries: the code never deduplicates, so each occurrence can take a slot. -/
theorem longestState_length (ws : List (List Nat)) :
    (longestState ws).length = min 5 ws.length := by
  simpa [longestState] using longestState_aux_length ws [] (by simp)

theorem longestState_aux_sorted :
    ∀ (ws : List (List Nat)) (s : List (Nat × List Nat)),
      s.Pairwise (fun a b => pairLt b a = false) →
      (ws.foldl (fun s w => offer (w.length, w) s) s).Pairwise
        (fun a b => pairLt b a = false)
  | [], _, h => h
  | _ :: ws, _, h => longestState_aux_sorted ws _ (offer_sorted h)

theorem longestState_sorted (ws : List (List Nat)) :
    (longestState ws).Pairwise (fun a b => pairLt b a = false) :=
  longestState_aux_sorted ws [] List.Pairwise.nil

theorem longestState_aux_fst :
    ∀ (ws : List (List Nat)) (s : List (Nat × List Nat)),
      (∀ z ∈ s, z.1 = z.2.length) →
      ∀ z ∈ ws.foldl (fun s w => offer (w.length, w) s) s, z.1 = z.2.length
  | [], _, h => h
  | w :: ws, s, h => by
      simp only [List.foldl_cons]
      refine longestState_aux_fst ws _ ?_
      intro z hz
      rcases mem_offer hz with rfl | hz'
      · rfl
      · exact h z hz'

theorem longestState_fst (ws : List (List Nat)) :
    ∀ z ∈ longestState ws, z.1 = z.2.length :=
  longestState_aux_fst ws [] (by simp)

/-- The fast longest list is non-increasing in word length, whatever order
the unstable final sort leaves equal-length entries in. -/
theorem fastLongestWords_sorted (t : List Nat) :
    (fastLongestWords t).Pairwise (fun u v => v.length ≤ u.length) := by
  unfold fastLongestWords
  rw [List.pairwise_map, List.pairwise_reverse]
  have hs := longestState_sorted (fastWords t)
  have hf := longestState_fst (fastWords t)
  refine hs.imp_of_mem ?_
  intro a b ha hb hab
  have h1 := fst_le_of_pairLt_eq_false hab
  rw [hf a ha, hf b hb] at h1
  exact h1

/-! ## Slow-variant sort lemmas -/

theorem mem_insLenDesc {z x : List Nat} :
    ∀ {l : List (List Nat)}, z ∈ insLenDesc x l ↔ z = x ∨ z ∈ l
  | [] => by simp [insLenDesc]
  | y :: ys => by
      unfold insLenDesc
      split
      · simp
      · rw [List.mem_cons, List.mem_cons, mem_insLenDesc]
        tauto

theorem insLenDesc_sorted {x : List Nat} :
    ∀ {l : List (List Nat)}, l.Pairwise (fun a b => b.length ≤ a.length) →
      (insLenDesc x l).Pairwise (fun a b => b.length ≤ a.length)
  | [], _ => List.pairwise_singleton _ x
  | y :: ys, hl => by
      rcases List.pairwise_cons.mp hl with ⟨hy, hys⟩
      unfold insLenDesc
      split
      · rename_i hyx
        refine List.pairwise_cons.mpr ⟨?_, hl⟩
        intro z hz
        rcases List.mem_cons.mp hz with rfl | hz'
        · exact hyx
        · exact Nat.le_trans (hy z hz') hyx
      · rename_i hyx
        refine List.pairwise_cons.mpr ⟨?_, insLenDesc_sorted hys⟩
        intro z hz
        rcases mem_insLenDesc.mp hz with rfl | hz'
        · omega
        · exact hy z hz'

theorem sortLenDesc_sorted :
    ∀ ws : List (List Nat), (sortLenDesc ws).Pairwise (fun a b => b.length ≤ a.length)
  | [] => List.Pairwise.nil
  | w :: ws => by
      unfold sortLenDesc at *
      exact insLenDesc_sorted (sortLenDesc_sorted ws)

/-- The slow longest list is non-increasing in word length as well. -/
theorem slowLongestWords_sorted (t : List Nat) :
    (slowLongestWords t).Pairwise (fun u v => v.length ≤ u.length) := by
  unfold slowLongestWords
  exact (sortLenDesc_sorted (slowWords t)).sublist (List.take_sublist 5 _)

/-! ## Bridging theorems -/

/-- The fast variant's top-words pop loop yields the sorted-and-truncated
vocabulary regardless of the hash map's iteration order. -/
theorem fastTopWords_eq_topOf {t : List Nat} {σ : List (Nat × List Nat)}
    (h : σ.Perm (vocabPairs (fastVocab t))) :
    fastTopWords σ = topOf (fastVocab t) := by
  have hnd : (vocabPairs (fastVocab t)).Nodup :=
    vocabPairs_nodup (buildVocab_keys_nodup (fastWords t))
  have hperm : σ.Perm (sortPairsDesc (vocabPairs (fastVocab t))) :=
    h.trans (sortPairsDesc_perm _).symm
  have hsorted := sortPairsDesc_sorted hnd
  unfold fastTopWords topOf
  rw [heapPopAll_perm 10 hperm, heapPopAll_sorted 10 _ hsorted]

theorem sortPairsDesc_length (l : List (Nat × List Nat)) :
    (sortPairsDesc l).length = l.length :=
  (sortPairsDesc_perm l).length_eq

/-- The two whitespace predicates agree everywhere except at byte 0x0B. -/
theorem slow_fast_ws_eq {b : Nat} (h : b ≠ 11) : isSlowWs b = isAsciiWs b := by
  rw [Bool.eq_iff_iff]
  simp only [isSlowWs, isAsciiWs, Bool.or_eq_true, Bool.and_eq_true, beq_iff_eq,
    decide_eq_true_eq]
  omega

/-- ASCII bytes decode to themselves: one codepoint per byte. -/
theorem utf8Decode_ascii : ∀ {t : List Nat}, (∀ b ∈ t, b < 128) → utf8Decode t = t
  | [], _ => rfl
  | [b], h => by
      have hb : b < 128 := h b (List.mem_cons_self b [])
      rw [utf8Decode, if_pos hb]
  | [b, c1], h => by
      have hb : b < 128 := h b (by simp)
      rw [utf8Decode, if_pos hb, utf8Decode_ascii (fun x hx => h x (List.mem_cons_of_mem b hx))]
  | [b, c1, c2], h => by
      have hb : b < 128 := h b (by simp)
      rw [utf8Decode, if_pos hb, utf8Decode_ascii (fun x hx => h x (List.mem_cons_of_mem b hx))]
  | b :: c1 :: c2 :: c3 :: rest, h => by
      have hb : b < 128 := h b (by simp)
      rw [utf8Decode, if_pos hb, utf8Decode_ascii (fun x hx => h x (List.mem_cons_of_mem b hx))]

/-- Below 0x80 the Unicode Alphabetic property coincides with
ASCII-alphabetic. -/
theorem charIsAlphabetic_ascii {b : Nat} (h : b < 128) :
    charIsAlphabetic b = isAsciiAlpha b := by
  have h1 : (b == 0xAA) = false := by
    simp only [beq_eq_false_iff_ne, ne_eq]
    omega
  have h2 : (b == 0xB5) = false := by
    simp only [beq_eq_false_iff_ne, ne_eq]
    omega
  have h3 : (b == 0xBA) = false := by
    simp only [beq_eq_false_iff_ne, ne_eq]
    omega
  have h4 : decide (0xC0 ≤ b) = false := by
    simp only [decide_eq_false_iff_not]
    omega
  rw [charIsAlphabetic, h1, h2, h3, h4]
  simp

theorem countP_congr_mem {p q : Nat → Bool} :
    ∀ {l : List Nat}, (∀ a ∈ l, p a = q a) → l.countP p = l.countP q
  | [], _ => rfl
  | a :: l, h => by
      rw [List.countP_cons, List.countP_cons, h a (List.mem_cons_self a l),
        countP_congr_mem (fun x hx => h x (List.mem_cons_of_mem a hx))]

/-- On ASCII input the slow counter reduces to the ASCII-alphabetic byte
count; on non-ASCII input it does not (see the C7 counterexample). -/
theorem slowCharCount_ascii {t : List Nat} (h : ∀ b ∈ t, b < 128) :
    slowCharCount t = t.countP isAsciiAlpha := by
  rw [slowCharCount, utf8Decode_ascii h]
  exact countP_congr_mem (fun b hb => charIsAlphabetic_ascii (h b hb))

/-! ## Claims -/

/-- C1, counterexample: on input "hello hello" the fast analyzer's
longest_words list is ["hello", "hello"] — the heap holds one entry per
occurrence, so the same word occupies two slots and the entries are not
pairwise distinct. -/
theorem C1_counterexample :
    (fastStatsC (strBytes "hello hello")).longestWords
        = [strBytes "hello", strBytes "hello"]
      ∧ ¬ List.Pairwise (fun a b => a ≠ b)
          ((fastStatsC (strBytes "hello hello")).longestWords) := by
  refine ⟨by decide, ?_⟩
  intro h
  rw [show (fastStatsC (strBytes "hello hello")).longestWords
      = [strBytes "hello", strBytes "hello"] from by decide] at h
  exact (List.pairwise_cons.mp h).1 _ (List.mem_singleton.mpr rfl) rfl

/-- C1, amended: the longest_words list of the fast analyzer may repeat a
word (every occurrence of a non-empty normalized word is offered and the
heap does not deduplicate); its length is min 5 (number of non-empty
normalized token occurrences), not min 5 (unique word count). -/
theorem C1_longest_length (t : List Nat) :
    (fastStatsC t).longestWords.length = min 5 (fastWords t).length := by
  show (fastLongestWords t).length = _
  unfold fastLongestWords
  rw [List.length_map, List.length_reverse, longestState_length]

/-- C2, counterexample: on "Hello, HELLO hello!" the fast analyzer returns
longest_words = ["hello", "hello", "hello"], not the single-element list
["hello"] the claim states (each of the three occurrences takes a slot). -/
theorem C2_counterexample :
    (fastStatsC (strBytes "Hello, HELLO hello!")).longestWords
        = [strBytes "hello", strBytes "hello", strBytes "hello"]
      ∧ (fastStatsC (strBytes "Hello, HELLO hello!")).longestWords
          ≠ [strBytes "hello"] := by
  constructor
  · decide
  · decide

/-- C2, amended: on "Hello, HELLO hello!" both analyzers return
unique_word_count 1, alphabetic_char_count 15, top_words [("hello", 3)] and
longest_words ["hello", "hello", "hello"], for every hash-map iteration
order. -/
theorem C2_e3_values (σ₁ : List (Nat × List Nat)) (σ₂ : List (List Nat × Nat))
    (h₁ : σ₁.Perm (vocabPairs (fastVocab (strBytes "Hello, HELLO hello!"))))
    (h₂ : σ₂.Perm (slowVocab (strBytes "Hello, HELLO hello!"))) :
    fastStats (strBytes "Hello, HELLO hello!") σ₁
        = { wordCount := 1, charCount := 15,
            topWords := [(strBytes "hello", 3)],
            longestWords := [strBytes "hello", strBytes "hello", strBytes "hello"] }
      ∧ slowStats (strBytes "Hello, HELLO hello!") σ₂
        = { wordCount := 1, charCount := 15,
            topWords := [(strBytes "hello", 3)],
            longestWords := [strBytes "hello", strBytes "hello", strBytes "hello"] } := by
  constructor
  · have he : fastStats (strBytes "Hello, HELLO hello!") σ₁
        = fastStatsC (strBytes "Hello, HELLO hello!") := by
      show _ = fastStats _ _
      simp only [fastStats, fastTopWords_eq_topOf h₁,
        fastTopWords_eq_topOf (List.Perm.refl (vocabPairs (fastVocab _)))]
    rw [he]
    decide
  · have hv : slowVocab (strBytes "Hello, HELLO hello!") = [(strBytes "hello", 3)] := by
      decide
    rw [hv] at h₂
    rw [List.perm_singleton.mp h₂]
    decide

/-- C2, witness: the amended values at the canonical iteration orders. -/
theorem C2_witness :
    fastStats (strBytes "Hello, HELLO hello!") [(3, strBytes "hello")]
        = { wordCount := 1, charCount := 15,
            topWords := [(strBytes "hello", 3)],
            longestWords := [strBytes "hello", strBytes "hello", strBytes "hello"] }
      ∧ slowStats (strBytes "Hello, HELLO hello!") [(strBytes "hello", 3)]
        = { wordCount := 1, charCount := 15,
            topWords := [(strBytes "hello", 3)],
            longestWords := [strBytes "hello", strBytes "hello", strBytes "hello"] } :=
  C2_e3_values [(3, strBytes "hello")] [(strBytes "hello", 3)] (by decide) (by decide)

/-- C3, counterexample: on input "a b" (two words, both of count 1, "a"
inserted first) the fast analyzer returns top_words = [("b", 1), ("a", 1)]:
the count tie is broken by descending word order, not by ascending
insertion index, which would give [("a", 1), ("b", 1)]. -/
theorem C3_counterexample :
    (fastStatsC (strBytes "a b")).topWords = [(strBytes "b", 1), (strBytes "a", 1)]
      ∧ (fastStatsC (strBytes "a b")).topWords
          ≠ [(strBytes "a", 1), (strBytes "b", 1)] := by
  constructor
  · decide
  · decide

/-- C3, amended: for every input and every hash-map iteration order, the
fast analyzer's top_words list is the whole vocabulary sorted by
(count, word) descending — count descending, ties broken by word
DESCENDING lexicographically — truncated to min 10 (unique word count)
entries.  (The slow variant's count ties instead follow the hash map's
iteration order.) -/
theorem C3_top_words (t : List Nat) (σ : List (Nat × List Nat))
    (h : σ.Perm (vocabPairs (fastVocab t))) :
    fastTopWords σ = topOf (fastVocab t)
      ∧ (fastTopWords σ).length = min 10 (fastVocab t).length
      ∧ (fastTopWords σ).Pairwise (fun a b => pairLt (b.2, b.1) (a.2, a.1) = true) := by
  have he := fastTopWords_eq_topOf h
  refine ⟨he, ?_, ?_⟩
  · rw [he]
    unfold topOf
    rw [List.length_map, List.length_take, sortPairsDesc_length, vocabPairs,
      List.length_map]
  · rw [he]
    unfold topOf
    rw [List.pairwise_map]
    have hsorted := sortPairsDesc_sorted
      (vocabPairs_nodup (buildVocab_keys_nodup (fastWords t)))
    exact hsorted.sublist (List.take_sublist 10 _)

/-- C3, witness: the amended statement at input "a b" with the canonical
iteration order. -/
theorem C3_witness :
    fastTopWords (vocabPairs (fastVocab (strBytes "a b")))
        = topOf (fastVocab (strBytes "a b"))
      ∧ (fastTopWords (vocabPairs (fastVocab (strBytes "a b")))).length
          = min 10 (fastVocab (strBytes "a b")).length
      ∧ (fastTopWords (vocabPairs (fastVocab (strBytes "a b")))).Pairwise
          (fun a b => pairLt (b.2, b.1) (a.2, a.1) = true) :=
  C3_top_words (strBytes "a b") _ (List.Perm.refl _)

/-- C4, counterexample: on input "bb cc bb" the slow analyzer's
longest_words list is ["bb", "cc", "bb"]: all three entries have length 2,
but "cc" (vocabulary insertion index 1) sits between two copies of "bb"
(insertion index 0), so equal-length words are NOT in ascending insertion
index order (the indices read 0, 1, 0). -/
theorem C4_counterexample :
    (slowStatsC (strBytes "bb cc bb")).longestWords
        = [strBytes "bb", strBytes "cc", strBytes "bb"]
      ∧ (strBytes "cc").length = (strBytes "bb").length
      ∧ (slowVocab (strBytes "bb cc bb")).map Prod.fst
          = [strBytes "bb", strBytes "cc"] := by
  refine ⟨by decide, by decide, by decide⟩

/-- C4, amended: both analyzers' longest_words lists are non-increasing in
word length, but ties on length are NOT ordered by ascending insertion
index: the slow variant lists every occurrence (duplicates included) in
occurrence order within a length class, and the fast variant's order within
a length class is left unspecified by its unstable final sort. -/
theorem C4_longest_sorted (t : List Nat) :
    (fastStatsC t).longestWords.Pairwise (fun u v => v.length ≤ u.length)
      ∧ (slowStatsC t).longestWords.Pairwise (fun u v => v.length ≤ u.length) :=
  ⟨fastLongestWords_sorted t, slowLongestWords_sorted t⟩

/-- C5, counterexample: the slow analyzer is not a function of the input
alone.  On "a b" both displayed lists are permutations of the vocabulary
(so both are possible hash-map iteration orders), yet they yield different
Stats records: the count tie between "a" and "b" is returned in iteration
order. -/
theorem C5_counterexample :
    ([(strBytes "a", 1), (strBytes "b", 1)] : List (List Nat × Nat)).Perm
        (slowVocab (strBytes "a b"))
      ∧ ([(strBytes "b", 1), (strBytes "a", 1)] : List (List Nat × Nat)).Perm
          (slowVocab (strBytes "a b"))
      ∧ slowStats (strBytes "a b") [(strBytes "a", 1), (strBytes "b", 1)]
          ≠ slowStats (strBytes "a b") [(strBytes "b", 1), (strBytes "a", 1)] := by
  refine ⟨by decide, by decide, by decide⟩

/-- C5, amended: the FAST analyzer is deterministic — its Stats record
(wordCount, charCount, topWords, longestWords; the elapsed-time field is
not modelled) is independent of the hash map's iteration order, hence equal
across invocations on equal inputs.  The slow analyzer is not (see the
counterexample). -/
theorem C5_fast_deterministic (t : List Nat) (σ₁ σ₂ : List (Nat × List Nat))
    (h₁ : σ₁.Perm (vocabPairs (fastVocab t))) (h₂ : σ₂.Perm (vocabPairs (fastVocab t))) :
    fastStats t σ₁ = fastStats t σ₂ := by
  simp only [fastStats, fastTopWords_eq_topOf h₁, fastTopWords_eq_topOf h₂]

/-- C5, witness: two distinct iteration orders of the vocabulary of "a b"
yield the same fast Stats record. -/
theorem C5_witness :
    fastStats (strBytes "a b") [(1, strBytes "a"), (1, strBytes "b")]
      = fastStats (strBytes "a b") [(1, strBytes "b"), (1, strBytes "a")] :=
  C5_fast_deterministic (strBytes "a b") _ _ (by decide) (by decide)

/-- C6, counterexample: a 0x01 byte does not separate tokens: on the input
[0x61, 0x01, 0x62] ("a", 0x01, "b") the fast tokenizer produces the single
raw token [0x61, 0x01, 0x62] and one vocabulary word "ab", not the two
tokens and two words the claim's byte-value-at-most-0x20 rule implies. -/
theorem C6_counterexample :
    fastTokens [97, 1, 98] = [[97, 1, 98]]
      ∧ (fastStatsC [97, 1, 98]).wordCount = 1 := by
  refine ⟨by decide, by decide⟩

/-- C6, amended: raw tokens are the maximal runs of non-separator bytes
(as the spec says), but the separator set of the fast analyzer is exactly
the five Rust ASCII whitespace bytes 0x09, 0x0A, 0x0C, 0x0D, 0x20 — not all
bytes at most 0x20 — and the slow analyzer's (on ASCII input) additionally
contains 0x0B. -/
theorem C6_tokens_maximal_runs (t : List Nat) :
    fastTokens t = specTokens isAsciiWs t
      ∧ slowTokens t = specTokens isSlowWs t
      ∧ (∀ b : Nat, isAsciiWs b = true ↔ b = 9 ∨ b = 10 ∨ b = 12 ∨ b = 13 ∨ b = 32)
      ∧ (∀ b : Nat, isSlowWs b = true ↔ b = 32 ∨ (9 ≤ b ∧ b ≤ 13)) := by
  refine ⟨tokensAux_eq_specTokens _ t, tokensAux_eq_specTokens _ t, ?_, ?_⟩
  · intro b
    simp only [isAsciiWs, Bool.or_eq_true, beq_iff_eq]
    omega
  · intro b
    simp only [isSlowWs, Bool.or_eq_true, Bool.and_eq_true, beq_iff_eq, decide_eq_true_eq]

/-- C7, counterexample: the slow analyzer counts Unicode-alphabetic chars,
so non-ASCII characters DO contribute: on the input "é" (UTF-8 bytes
[0xC3, 0xA9], the single codepoint U+00E9) the slow char_count is 1, while
the sum over raw tokens of ASCII-alphabetic bytes is 0 — refuting the
claim's equation for the cited analyze_text_slow code. -/
theorem C7_counterexample :
    slowCharCount [0xC3, 0xA9] = 1
      ∧ ((slowTokens [0xC3, 0xA9]).map (fun tok => tok.countP isAsciiAlpha)).sum = 0
      ∧ slowCharCount [0xC3, 0xA9]
          ≠ ((slowTokens [0xC3, 0xA9]).map (fun tok => tok.countP isAsciiAlpha)).sum := by
  refine ⟨by decide, by decide, by decide⟩

/-- C7, amended: for the FAST analyzer, for every input, char_count equals
the sum over all raw tokens of their ASCII-alphabetic byte counts, which
also equals the alphabetic-byte count of the whole input (whitespace runs
and non-ASCII bytes never contribute).  For the SLOW analyzer this holds
only for ASCII input; on non-ASCII input its Unicode-alphabetic characters
contribute as well (see the counterexample). -/
theorem C7_char_count_sum (t : List Nat) :
    fastCharCount t = ((fastTokens t).map (fun tok => tok.countP isAsciiAlpha)).sum
      ∧ fastCharCount t = t.countP isAsciiAlpha
      ∧ ((∀ b ∈ t, b < 128) →
          slowCharCount t = ((slowTokens t).map (fun tok => tok.countP isAsciiAlpha)).sum) := by
  refine ⟨rfl, fastCharCount_countP t, ?_⟩
  intro hA
  have h := tokensAux_countP slow_ws_not_alpha t []
  simp only [List.countP_nil, Nat.add_zero] at h
  rw [slowCharCount_ascii hA, slowTokens, h]

/-- C7, witness: the slow-variant conjunct exercised at the ASCII input
"a b". -/
theorem C7_witness :
    slowCharCount [97, 32, 98]
        = ((slowTokens [97, 32, 98]).map (fun tok => tok.countP isAsciiAlpha)).sum :=
  (C7_char_count_sum [97, 32, 98]).2.2 (by decide)

/-- C8: for every input, the counts of all vocabulary entries sum to the
number of non-empty normalized tokens emitted by the tokenizer, in both
analyzers (each occurrence increments exactly one entry by one). -/
theorem C8_vocab_count_sum (t : List Nat) :
    ((fastVocab t).map Prod.snd).sum = (fastWords t).length
      ∧ ((slowVocab t).map Prod.snd).sum = (slowWords t).length :=
  ⟨buildVocab_sum (fastWords t), buildVocab_sum (slowWords t)⟩

/-- C9: the fast analyzer has no failure modes in the model (it is a total
function); the empty input and inputs of only whitespace bytes yield zero
counts and empty lists; and the alphabetic character count is additive
under concatenation with a single separating space. -/
theorem C9_empty_ws_additive :
    fastStatsC [] = { wordCount := 0, charCount := 0, topWords := [], longestWords := [] }
      ∧ (∀ t : List Nat, (∀ b ∈ t, isAsciiWs b = true) →
          fastStatsC t
            = { wordCount := 0, charCount := 0, topWords := [], longestWords := [] })
      ∧ (∀ a b : List Nat,
          fastCharCount (a ++ 32 :: b) = fastCharCount a + fastCharCount b) := by
  refine ⟨rfl, ?_, ?_⟩
  · intro t ht
    have htok : fastTokens t = [] := tokensAux_all_ws t ht
    simp [fastStatsC, fastStats, fastVocab, fastWords, wordsOf, fastCharCount,
      fastLongestWords, longestState, fastTopWords, vocabPairs, buildVocab, htok]
    rfl
  · intro a b
    rw [fastCharCount_countP, fastCharCount_countP, fastCharCount_countP,
      List.countP_append, List.countP_cons]
    simp [isAsciiAlpha]

/-- C9, witness: a whitespace-only input (space, tab, newline) yields the
zero record, and the count of "a b" splits as count "a" plus count "b". -/
theorem C9_witness :
    fastStatsC [32, 9, 10]
        = { wordCount := 0, charCount := 0, topWords := [], longestWords := [] }
      ∧ fastCharCount [97, 32, 98] = fastCharCount [97] + fastCharCount [98] :=
  ⟨C9_empty_ws_additive.2.1 [32, 9, 10] (by decide), C9_empty_ws_additive.2.2 [97] [98]⟩

/-- C10, counterexample: on the all-ASCII input [0x61, 0x0B, 0x62]
("a", vertical tab, "b") the slow analyzer reports 2 unique words (vertical
tab is Unicode whitespace) while the fast analyzer reports 1 (vertical tab
is not in Rust's ASCII whitespace set), so the two variants do NOT agree on
word_count for every ASCII input. -/
theorem C10_counterexample :
    (slowStatsC [97, 11, 98]).wordCount = 2
      ∧ (fastStatsC [97, 11, 98]).wordCount = 1
      ∧ (∀ b ∈ ([97, 11, 98] : List Nat), b < 128) := by
  refine ⟨by decide, by decide, by decide⟩

/-- C10, amended: on ASCII input the two analyzers always agree on
char_count, and they agree on word_count whenever the input contains no
vertical-tab byte 0x0B (the only byte the two whitespace classifications
disagree on). -/
theorem C10_scalar_agreement (t : List Nat) (hA : ∀ b ∈ t, b < 128) :
    slowCharCount t = fastCharCount t
      ∧ ((11 : Nat) ∉ t → (slowStatsC t).wordCount = (fastStatsC t).wordCount) := by
  constructor
  · rw [fastCharCount_countP, slowCharCount_ascii hA]
  · intro h11
    have htok : slowTokens t = fastTokens t :=
      tokensAux_congr t [] (fun b hb => slow_fast_ws_eq (fun he => h11 (he ▸ hb)))
    show (slowVocab t).length = (fastVocab t).length
    rw [slowVocab, fastVocab, slowWords, fastWords, htok]

/-- C10, witness: the agreement at the ASCII, 0x0B-free input "a b". -/
theorem C10_witness :
    slowCharCount [97, 32, 98] = fastCharCount [97, 32, 98]
      ∧ ((11 : Nat) ∉ ([97, 32, 98] : List Nat) →
          (slowStatsC [97, 32, 98]).wordCount = (fastStatsC [97, 32, 98]).wordCount) :=
  C10_scalar_agreement [97, 32, 98] (by decide)
